import Mathlib

/-!
Verification development for the autonix detection/generation pipeline.

Rust source files are embedded shallowly: strings are `List Char`, machine
integers are `Nat` with the `u32` bound made explicit where the source
parses `u32`, filesystem access is an explicit model passed as data, and
fallible operations return `Option`.  Each definition mirrors one function
of the source tree (named in its doc comment).
-/

namespace Autonix

/-! ## Character and string helpers (shared by the embedded functions) -/

/-- ASCII digit test, `c.is_ascii_digit()` in Rust. -/
def isAsciiDigit (c : Char) : Bool := 48 ≤ c.toNat && c.toNat ≤ 57

/-- Numeric value of an ASCII digit character. -/
def digitVal (c : Char) : Nat := c.toNat - 48

/-- Whitespace as used by `str::trim` (restricted to the ASCII whitespace
characters, which covers every input the repository feeds to it). -/
def isWsChar (c : Char) : Bool := c = ' ' || c = '\t' || c = '\n' || c = '\r'

/-- `str::trim_start`. -/
def trimStart (l : List Char) : List Char := l.dropWhile isWsChar

/-- `str::trim_end`. -/
def trimEnd (l : List Char) : List Char := (l.reverse.dropWhile isWsChar).reverse

/-- `str::trim`. -/
def trimWs (l : List Char) : List Char := trimEnd (trimStart l)

/-- `str::trim_start_matches(c)` for a single-character pattern: removes every
leading occurrence. -/
def stripLeadingChar (c : Char) (l : List Char) : List Char := l.dropWhile (· = c)

/-- One fuel-bounded round of `str::trim_start_matches(pat)` for a string
pattern: strips the pattern as long as it is a prefix.  Each successful strip
removes at least one character when `pat` is nonempty, so fuel
`l.length + 1` makes the bounded loop agree with the unbounded Rust loop. -/
def stripSeqGo (pat : List Char) : Nat → List Char → List Char
  | 0, l => l
  | fuel + 1, l =>
    if pat ≠ [] && pat.isPrefixOf l then stripSeqGo pat fuel (l.drop pat.length) else l

/-- `str::trim_start_matches(pat)` for a string pattern. -/
def stripLeadingSeq (pat l : List Char) : List Char := stripSeqGo pat (l.length + 1) l

/-- `str::split(sep)` for a single-character separator: Rust semantics, the
result always has one more piece than there are separators. -/
def splitOnCharL (sep : Char) : List Char → List (List Char)
  | [] => [[]]
  | c :: rest =>
    if c = sep then [] :: splitOnCharL sep rest
    else
      match splitOnCharL sep rest with
      | [] => [[c]]
      | h :: t => (c :: h) :: t

/-- `str::split(&[c₁, c₂])`: split on either of two separator characters. -/
def splitOnTwoChars (s1 s2 : Char) : List Char → List (List Char)
  | [] => [[]]
  | c :: rest =>
    if c = s1 || c = s2 then [] :: splitOnTwoChars s1 s2 rest
    else
      match splitOnTwoChars s1 s2 rest with
      | [] => [[c]]
      | h :: t => (c :: h) :: t

/-- `str::split("||")`: split on each non-overlapping occurrence of the
two-character or-separator, scanning left to right. -/
def splitOnOrSep : List Char → List (List Char)
  | [] => [[]]
  | '|' :: '|' :: rest => [] :: splitOnOrSep rest
  | c :: rest =>
    match splitOnOrSep rest with
    | [] => [[c]]
    | h :: t => (c :: h) :: t

/-- `str::contains("||")`. -/
def containsOrSep : List Char → Bool
  | [] => false
  | '|' :: '|' :: _ => true
  | _ :: rest => containsOrSep rest

/-- Decimal value of a digit list (most significant first). -/
def decodeDigits (l : List Char) : Nat := l.foldl (fun a c => 10 * a + digitVal c) 0

/-- `str::parse::<u32>()`: optional leading plus sign, at least one digit,
all digits, value within the `u32` range. -/
def parseU32 (l : List Char) : Option Nat :=
  let digits := match l with | '+' :: rest => rest | _ => l
  if digits ≠ [] && digits.all isAsciiDigit && decodeDigits digits ≤ 4294967295 then
    some (decodeDigits digits)
  else none

/-- First whitespace-delimited token, `command.split_whitespace().next()`
with the `unwrap_or("")` used at the call site in `dev_flake.rs`. -/
def command_first_word (c : List Char) : List Char :=
  (c.dropWhile isWsChar).takeWhile (fun ch => !isWsChar ch)

/-! ## `detection/version.rs`: semantic-version parsing -/

/-- `VersionConstraint` from `detection/version.rs`. -/
inductive VersionConstraint where
  | exact | greaterOrEqual | lessOrEqual | greaterThan | lessThan
  | caret | tilde | wildcard
deriving DecidableEq

/-- `SemanticVersion` from `detection/version.rs`. -/
structure SemanticVersion where
  major : Option Nat
  minor : Option Nat
  patch : Option Nat
  preRelease : Option (List Char)
  build : Option (List Char)
  constraint : VersionConstraint
deriving DecidableEq

/-- `parse_constraint` from `detection/version.rs`: longest-match scan of the
leading operator, trimming the remainder; no match leaves the input as is. -/
def parse_constraint (s : List Char) : VersionConstraint × List Char :=
  match s with
  | '>' :: '=' :: rest => (.greaterOrEqual, trimWs rest)
  | '<' :: '=' :: rest => (.lessOrEqual, trimWs rest)
  | '>' :: rest => (.greaterThan, trimWs rest)
  | '<' :: rest => (.lessThan, trimWs rest)
  | '^' :: rest => (.caret, trimWs rest)
  | '~' :: rest => (.tilde, trimWs rest)
  | '=' :: rest => (.exact, trimWs rest)
  | _ => (.exact, s)

/-- The prefix-normalisation step of `parse_semantic_version`: trim, then
`trim_start_matches` for `v`, `python-` and `node-` in that order. -/
def normalizeVersionInput (raw : List Char) : List Char :=
  stripLeadingSeq ("node-").toList
    (stripLeadingSeq ("python-").toList (stripLeadingChar 'v' (trimWs raw)))

/-- The result of the bare-`*` branch of `parse_semantic_version`. -/
def wildcardVersion : SemanticVersion :=
  ⟨none, none, none, none, none, .wildcard⟩

/-- `parse_semantic_version` from `detection/version.rs`.  A bare `*` (after
prefix stripping) short-circuits to the wildcard; otherwise the constraint is
scanned, the remainder split on `.`, the major component must parse as `u32`,
minor and patch parse independently (patch first cut at `-`/`+`), and
pre-release and build metadata are extracted by positional splits. -/
def parse_semantic_version (raw : List Char) : Option SemanticVersion :=
  if normalizeVersionInput raw = ['*'] then some wildcardVersion
  else
    if (parse_constraint (normalizeVersionInput raw)).2 = [] then none
    else
      match (splitOnCharL '.' (parse_constraint (normalizeVersionInput raw)).2).head?
          >>= parseU32 with
      | none => none
      | some major =>
        some ⟨some major,
          (splitOnCharL '.' (parse_constraint (normalizeVersionInput raw)).2)[1]?
            >>= parseU32,
          (splitOnCharL '.' (parse_constraint (normalizeVersionInput raw)).2)[2]?
            >>= fun p => (splitOnTwoChars '-' '+' p).head? >>= parseU32,
          (splitOnCharL '-' (parse_constraint (normalizeVersionInput raw)).2)[1]?
            |>.map fun p => ((splitOnCharL '+' p).head?).getD p,
          (splitOnCharL '+' (parse_constraint (normalizeVersionInput raw)).2)[1]?,
          (parse_constraint (normalizeVersionInput raw)).1⟩

/-! ## Maximum selection

`parse_version_or_expression` maximises the key `(v.major, v.minor, v.patch)`
under the derived `Ord` of `(Option<u32>, Option<u32>, Option<u32>)`: the
tuple order is lexicographic and `None` compares below every `Some`.
`best_version_info` maximises `(major.unwrap_or(0), minor.unwrap_or(0),
patch.unwrap_or(0))`.  Both keys are embedded as `Nat` triples compared
lexicographically; for the former, `Option<u32>` is mapped through
`none ↦ 0, some n ↦ n + 1`, an order-embedding of the Rust `Option` order. -/

/-- Strict lexicographic order on `Nat` triples. -/
def lexLt (a b : Nat × Nat × Nat) : Prop :=
  a.1 < b.1 ∨ (a.1 = b.1 ∧ (a.2.1 < b.2.1 ∨ (a.2.1 = b.2.1 ∧ a.2.2 < b.2.2)))

/-- Lexicographic order on `Nat` triples. -/
def lexLe (a b : Nat × Nat × Nat) : Prop :=
  a.1 < b.1 ∨ (a.1 = b.1 ∧ (a.2.1 < b.2.1 ∨ (a.2.1 = b.2.1 ∧ a.2.2 ≤ b.2.2)))

instance (a b : Nat × Nat × Nat) : Decidable (lexLt a b) := by
  unfold lexLt; exact inferInstance

instance (a b : Nat × Nat × Nat) : Decidable (lexLe a b) := by
  unfold lexLe; exact inferInstance

/-- `Iterator::max_by_key` step by step: the fold keeps the incoming element
whenever its key is not strictly smaller, so ties go to the later element,
matching the documented Rust behaviour of returning the last maximum. -/
def maxByKeyAcc {α : Type} (key : α → Nat × Nat × Nat) (acc : Option α) :
    List α → Option α
  | [] => acc
  | x :: rest =>
    maxByKeyAcc key
      (match acc with
       | none => some x
       | some a => if lexLt (key x) (key a) then some a else some x)
      rest

/-- `Iterator::max_by_key` with a triple-valued key. -/
def maxByKey {α : Type} (key : α → Nat × Nat × Nat) (l : List α) : Option α :=
  maxByKeyAcc key none l

/-- Order-embedding of the Rust `Option<u32>` order into `Nat`:
`None < Some 0 < Some 1 < …`. -/
def optVal : Option Nat → Nat
  | none => 0
  | some n => n + 1

/-- The comparison key of `parse_version_or_expression`:
`(v.major, v.minor, v.patch)` under the Rust `Option` order. -/
def optTuple (v : SemanticVersion) : Nat × Nat × Nat :=
  (optVal v.major, optVal v.minor, optVal v.patch)

/-- The comparison key of `best_version_info`: absent fields as zero. -/
def zeroTuple (v : SemanticVersion) : Nat × Nat × Nat :=
  (v.major.getD 0, v.minor.getD 0, v.patch.getD 0)

/-- The independently parsed alternatives of an or-expression. -/
def orAlternatives (raw : List Char) : List SemanticVersion :=
  (splitOnOrSep raw).filterMap fun v => parse_semantic_version (trimWs v)

/-- `parse_version_or_expression` from `detection/version.rs`: without a `||`
the plain parser runs; otherwise each alternative is trimmed and parsed, and
the maximum under the `(major, minor, patch)` `Option`-tuple order is kept. -/
def parse_version_or_expression (raw : List Char) : Option SemanticVersion :=
  if containsOrSep raw = false then parse_semantic_version raw
  else
    maxByKey optTuple
      ((splitOnOrSep raw).filterMap fun v => parse_semantic_version (trimWs v))

/-! ## `VersionInfo` and `best_version_info` -/

/-- `VersionSource` from `detection/version.rs`. -/
inductive VersionSource where
  | goModDirective | goVersionFile
  | rustToolchainFile | rustToolchainToml | cargoTomlRustVersion
  | pyprojectRequiresPython | pythonVersionFile | pipfilePythonVersion
  | setupPyPythonRequires
  | packageJsonEnginesNode | nvmrcFile | nodeVersionFile
  | bunVersionFile | packageJsonEnginesBun
deriving DecidableEq

/-- `Language` from `detection/language.rs`. -/
inductive Language where
  | go | rust | python | javascript
deriving DecidableEq

/-- `Language::dir_name`. -/
def Language.dirName : Language → List Char
  | .go => ("golang").toList
  | .python => ("python").toList
  | .javascript => ("nodejs").toList
  | .rust => ("rust").toList

/-- `VersionInfo` from `detection/version.rs`. -/
structure VersionInfo where
  raw : List Char
  parsed : Option SemanticVersion
  source : VersionSource
  path : List Char
deriving DecidableEq

/-- `VersionDetection` from `detection/version.rs`. -/
structure VersionDetection where
  language : Language
  versions : List VersionInfo
deriving DecidableEq

/-- The comparison key used inside `best_version_info` (the `None` arm of the
`let ... else` is kept even though the preceding filter makes it dead). -/
def bviKey (vi : VersionInfo) : Nat × Nat × Nat :=
  match vi.parsed with
  | none => (0, 0, 0)
  | some p => zeroTuple p

/-- The candidate list `best_version_info` maximises over: the versions of
the first detection for the requested language, restricted to allowed
sources with a successfully parsed version. -/
def eligibleVersions (versions : List VersionDetection) (language : Language)
    (allowed : List VersionSource) : List VersionInfo :=
  match versions.find? (fun vd => vd.language = language) with
  | none => []
  | some vd =>
    vd.versions.filter fun v => allowed.contains v.source && v.parsed.isSome

/-- `best_version_info` from `generation/dev_flake.rs` (its `metadata`
argument reduced to the `versions` field it reads). -/
def best_version_info (versions : List VersionDetection) (language : Language)
    (allowed : List VersionSource) : Option VersionInfo :=
  match versions.find? (fun vd => vd.language = language) with
  | none => none
  | some vd =>
    maxByKey bviKey
      (vd.versions.filter fun v => allowed.contains v.source && v.parsed.isSome)

/-! ## `generation/nix_builder.rs`: string escaping -/

/-- `escape_nix_string` from `generation/nix_builder.rs`.  The Rust loop
peeks one character ahead only in the `$` case; when `$` is followed by `{`
it emits a backslash and the `$`, and the `{` is handled by the next
iteration (where it falls into the default arm), which is what the
recursive call on `rest` reproduces. -/
def escape_nix_string : List Char → List Char
  | [] => []
  | c :: rest =>
    if c = '\\' then '\\' :: '\\' :: escape_nix_string rest
    else if c = '"' then '\\' :: '"' :: escape_nix_string rest
    else if c = '\n' then '\\' :: 'n' :: escape_nix_string rest
    else if c = '\r' then '\\' :: 'r' :: escape_nix_string rest
    else if c = '\t' then '\\' :: 't' :: escape_nix_string rest
    else if c = '$' ∧ rest.head? = some '{' then '\\' :: '$' :: escape_nix_string rest
    else c :: escape_nix_string rest

/-- Decoding of one backslash escape per the Nix double-quoted string
grammar: `\n`, `\r`, `\t` denote the control characters and any other
escaped character denotes itself. -/
def decodeNixEscape (c : Char) : Char :=
  if c = 'n' then '\n' else if c = 'r' then '\r' else if c = 't' then '\t' else c

/-- Reading a Nix double-quoted string body back: a backslash consumes the
next character through `decodeNixEscape`; every other character denotes
itself.  (A trailing lone backslash decodes to nothing; the escaper never
produces one.) -/
def unescapeNix : List Char → List Char
  | [] => []
  | c :: rest =>
    if c = '\\' then
      match rest with
      | [] => []
      | d :: rest2 => decodeNixEscape d :: unescapeNix rest2
    else c :: unescapeNix rest

/-! ## `detection/language.rs`: signals and classification -/

/-- `LanguageDetectionSource` from `detection/language.rs`. -/
inductive LanguageDetectionSource where
  | goMod | goWork | goSum | goVersionFile | goFile
  | cargoToml | cargoLock | rustToolchain | rustToolchainToml | rsFile
  | requirementsTxt | pyprojectToml | pipfile | pipfileLock | poetryLock
  | setupPy | setupCfg | environmentYml | pythonVersionFile | pyFile
  | packageJson | packageLockJson | yarnLock | pnpmLockYaml | bunLock
  | bunLockb | denoLock | lockJson | denoJson | denoJsonc | tsConfig
  | jsConfig | nvmrcFile | nodeVersionFile | bunVersionFile
  | jsFile | mjsFile | cjsFile | tsFile | jsxFile | tsxFile
deriving DecidableEq

/-- The exhaustive `From<&LanguageDetectionSource> for Language` mapping. -/
def languageOfSource : LanguageDetectionSource → Language
  | .goMod | .goWork | .goSum | .goVersionFile | .goFile => .go
  | .cargoToml | .cargoLock | .rustToolchain | .rustToolchainToml | .rsFile => .rust
  | .requirementsTxt | .pyprojectToml | .pipfile | .pipfileLock | .poetryLock
  | .setupPy | .setupCfg | .environmentYml | .pythonVersionFile | .pyFile => .python
  | .packageJson | .packageLockJson | .yarnLock | .pnpmLockYaml | .bunLock
  | .bunLockb | .denoLock | .lockJson | .denoJson | .denoJsonc | .tsConfig
  | .jsConfig | .nvmrcFile | .nodeVersionFile | .bunVersionFile
  | .jsFile | .mjsFile | .cjsFile | .tsFile | .jsxFile | .tsxFile => .javascript

/-- `LanguageDetectionSignal` from `detection/language.rs`. -/
inductive LanguageDetectionSignal where
  | strong (path : List Char) (source : LanguageDetectionSource)
  | weak (source : LanguageDetectionSource)
deriving DecidableEq

/-- `From<&LanguageDetectionSignal> for Language`. -/
def signalLanguage : LanguageDetectionSignal → Language
  | .strong _ source => languageOfSource source
  | .weak source => languageOfSource source

/-- `std::path::Path::file_name` on the string model of paths: the last
nonempty `/`-separated component, with `..` rejected.  (The `.` component
normalisation of `std::path` is not modelled; no repository input uses it.) -/
def fileNameL (p : List Char) : Option (List Char) :=
  match ((splitOnCharL '/' p).filter (· ≠ [])).getLast? with
  | none => none
  | some c => if c = ("..").toList then none else some c

/-- `std::path::Path::extension` applied to a file name: the part after the
last dot, provided some character precedes that dot. -/
def extensionOfFileName (f : List Char) : Option (List Char) :=
  let afterRev := f.reverse.takeWhile (· ≠ '.')
  if afterRev.length = f.length then none
  else if f.length = afterRev.length + 1 then none
  else some afterRev.reverse

/-- `std::path::Path::extension` on the string model of paths. -/
def extensionL (p : List Char) : Option (List Char) :=
  fileNameL p >>= extensionOfFileName

/-- The strong-match filename table of
`TryFrom<PathBuf> for LanguageDetectionSignal`. -/
def strongSourceOfFileName (f : List Char) : Option LanguageDetectionSource :=
  if f = ("go.mod").toList then some .goMod
  else if f = ("go.work").toList then some .goWork
  else if f = ("go.sum").toList then some .goSum
  else if f = (".go-version").toList then some .goVersionFile
  else if f = ("Cargo.toml").toList then some .cargoToml
  else if f = ("Cargo.lock").toList then some .cargoLock
  else if f = ("rust-toolchain").toList then some .rustToolchain
  else if f = ("rust-toolchain.toml").toList then some .rustToolchainToml
  else if f = ("requirements.txt").toList then some .requirementsTxt
  else if f = ("pyproject.toml").toList then some .pyprojectToml
  else if f = ("Pipfile").toList then some .pipfile
  else if f = ("Pipfile.lock").toList then some .pipfileLock
  else if f = ("poetry.lock").toList then some .poetryLock
  else if f = ("setup.py").toList then some .setupPy
  else if f = ("setup.cfg").toList then some .setupCfg
  else if f = ("environment.yml").toList then some .environmentYml
  else if f = (".python-version").toList then some .pythonVersionFile
  else if f = ("package.json").toList then some .packageJson
  else if f = ("package-lock.json").toList then some .packageLockJson
  else if f = ("yarn.lock").toList then some .yarnLock
  else if f = ("pnpm-lock.yaml").toList then some .pnpmLockYaml
  else if f = ("bun.lock").toList then some .bunLock
  else if f = ("bun.lockb").toList then some .bunLockb
  else if f = ("deno.lock").toList then some .denoLock
  else if f = ("lock.json").toList then some .lockJson
  else if f = ("deno.json").toList then some .denoJson
  else if f = ("deno.jsonc").toList then some .denoJsonc
  else if f = ("tsconfig.json").toList then some .tsConfig
  else if f = ("jsconfig.json").toList then some .jsConfig
  else if f = (".nvmrc").toList then some .nvmrcFile
  else if f = (".node-version").toList then some .nodeVersionFile
  else if f = (".bun-version").toList then some .bunVersionFile
  else none

/-- The weak-match extension table of
`TryFrom<PathBuf> for LanguageDetectionSignal`. -/
def weakSourceOfExtension (e : List Char) : Option LanguageDetectionSource :=
  if e = ("go").toList then some .goFile
  else if e = ("rs").toList then some .rsFile
  else if e = ("py").toList then some .pyFile
  else if e = ("js").toList then some .jsFile
  else if e = ("mjs").toList then some .mjsFile
  else if e = ("cjs").toList then some .cjsFile
  else if e = ("ts").toList then some .tsFile
  else if e = ("jsx").toList then some .jsxFile
  else if e = ("tsx").toList then some .tsxFile
  else none

/-- `TryFrom<PathBuf> for LanguageDetectionSignal`: exact filename first
(strong, carrying the path), then the extension table (weak). -/
def classifySignal (path : List Char) : Option LanguageDetectionSignal :=
  match fileNameL path with
  | none => none
  | some fname =>
    match strongSourceOfFileName fname with
    | some source => some (.strong path source)
    | none =>
      match extensionL path >>= weakSourceOfExtension with
      | some source => some (.weak source)
      | none => none

/-- The `retain` loop of `LanguageDetection::new`: strong signals always
pass; a weak signal passes only the first time its source tag is seen.
(The Rust set stores `format!("{:?}", source)` strings; the `Debug` string
of this field-less enum determines the variant, so the set of tags is an
equivalent state.) -/
def dedupSignals (seen : List LanguageDetectionSource) :
    List LanguageDetectionSignal → List LanguageDetectionSignal
  | [] => []
  | .strong p s :: rest => .strong p s :: dedupSignals seen rest
  | .weak s :: rest =>
    if s ∈ seen then dedupSignals seen rest
    else .weak s :: dedupSignals (s :: seen) rest

/-- `LanguageDetection` from `detection/language.rs`. -/
structure LanguageDetection where
  language : Language
  sources : List LanguageDetectionSignal
deriving DecidableEq

/-- `LanguageDetection::new`. -/
def LanguageDetection.new (language : Language)
    (sources : List LanguageDetectionSignal) : LanguageDetection :=
  ⟨language, dedupSignals [] sources⟩

/-! ## `detection/mod.rs`: directory walker -/

/-- `IGNORED_DIR_BASENAMES` from `detection/mod.rs`. -/
def ignoredDirBasenames : List (List Char) :=
  [(".git").toList, (".hg").toList, (".svn").toList,
   ("node_modules").toList, (".yarn").toList, (".pnpm-store").toList,
   (".turbo").toList, (".nx").toList, (".next").toList, (".nuxt").toList,
   (".svelte-kit").toList, (".parcel-cache").toList,
   ("target").toList,
   (".venv").toList, ("venv").toList, ("env").toList, ("__pycache__").toList,
   (".tox").toList, (".nox").toList, (".pytest_cache").toList,
   (".mypy_cache").toList, (".ruff_cache").toList,
   ("dist").toList, ("build").toList, ("out").toList, ("coverage").toList,
   (".cache").toList, (".direnv").toList, (".idea").toList,
   (".vscode").toList, ("vendor").toList, (".terraform").toList]

/-- `DirectoryIterator::should_ignore_dir`. -/
def should_ignore_dir (p : List Char) : Bool :=
  match fileNameL p with
  | none => false
  | some name => ignoredDirBasenames.contains name

/-- `DetectionScope` from `detection/mod.rs`. -/
inductive DetectionScope where
  | all | root
deriving DecidableEq

/-- A snapshot of the filesystem as the walker observes it: whether a path
is a directory, and the entry list `read_dir` returns for it (`none` models
a failing `read_dir`). -/
structure FsModel where
  isDir : List Char → Bool
  readDir : List Char → Option (List (List Char))

/-- One `next` step of `DirectoryIterator`, iterated with fuel: pop the
front of the queue, and when the popped path is an expandable directory
(scope permitting, not on the ignore list, `read_dir` succeeding) push its
entries at the back.  The fuel only bounds how many elements are pulled
from the lazy iterator; every claim below is about prefixes the Rust
iterator certainly produces. -/
def walkAux (fs : FsModel) (scope : DetectionScope) (root : List Char) :
    Nat → List (List Char) → List (List Char)
  | 0, _ => []
  | _ + 1, [] => []
  | fuel + 1, p :: queue =>
    let expand : Bool :=
      match scope with
      | .all => fs.isDir p && !should_ignore_dir p
      | .root => decide (p = root) && fs.isDir p && !should_ignore_dir p
    let queueNext :=
      match (if expand then fs.readDir p else none) with
      | some entries => queue ++ entries
      | none => queue
    p :: walkAux fs scope root fuel queueNext

/-- `DirectoryIterator::new(root, scope)` consumed into a `Vec`, fuel
bounded. -/
def walkPaths (fs : FsModel) (scope : DetectionScope) (root : List Char)
    (fuel : Nat) : List (List Char) :=
  walkAux fs scope root fuel [root]

/-! ## `detection/package_manager.rs`: the pyproject handler -/

/-- `PackageManager` from `detection/package_manager.rs`. -/
inductive PackageManager where
  | npm | pnpm | yarn | bun | deno
  | pip | uv | poetry | pdm | pipenv
  | cargo | go
deriving DecidableEq

/-- `PackageManagerSource` from `detection/package_manager.rs`. -/
inductive PackageManagerSource where
  | packageJson | packageLockJson | yarnLock | pnpmLockYaml | bunLockb
  | bunLock | denoJson | denoJsonc | denoLock | lockJson
  | requirementsTxt | pyprojectToml | poetryLock | pipfile | pipfileLock
  | cargoToml | cargoLock
  | goMod | goSum
deriving DecidableEq

/-- `PackageManagerInfo` from `detection/package_manager.rs`. -/
structure PackageManagerInfo where
  packageManager : PackageManager
  source : PackageManagerSource
  path : List Char
  version : Option (List Char)
deriving DecidableEq

/-- The outcome of the four TOML probes `detect_from_pyproject_toml`
performs on the parsed document (`toml::from_str` is an external crate; the
handler reads the document only through these four presence tests). -/
structure PyprojectDoc where
  hasToolPoetry : Bool
  hasToolPdm : Bool
  hasToolUv : Bool
  hasDependencyGroups : Bool
deriving DecidableEq

/-- `detect_from_pyproject_toml` from `detection/package_manager.rs`, for a
manifest that was read and parsed successfully: push Poetry, Pdm and Uv
entries for the recognized probes in that order, and fall back to a single
Pip entry when none matched. -/
def detect_from_pyproject_toml (doc : PyprojectDoc) (path : List Char) :
    List PackageManagerInfo :=
  let results :=
    (if doc.hasToolPoetry then [⟨.poetry, .pyprojectToml, path, none⟩] else []) ++
    (if doc.hasToolPdm then [⟨.pdm, .pyprojectToml, path, none⟩] else []) ++
    (if doc.hasToolUv || doc.hasDependencyGroups then
      [⟨.uv, .pyprojectToml, path, none⟩] else [])
  if results = [] then [⟨.pip, .pyprojectToml, path, none⟩] else results

/-! ## `detection/mod.rs`: the detection pipeline, ordered by the map

`detect_with_scope` groups signals into a `HashMap<Language, Vec<…>>` and
then builds the `languages` vector from `into_iter()`.  The per-language
vectors hold signals in traversal order (push order), but the order in
which the map yields its keys is unspecified and randomly seeded per map
instance, so it is modelled as an explicit argument: any permutation of the
set of detected languages is an order the map may produce. -/

/-- `paths.iter().filter_map(LanguageDetectionSignal::try_from)`. -/
def signalsOfPaths (paths : List (List Char)) : List LanguageDetectionSignal :=
  paths.filterMap classifySignal

/-- The per-language bucket of the grouping fold: the signals of one
language in push (traversal) order. -/
def signalsForLanguage (signals : List LanguageDetectionSignal)
    (l : Language) : List LanguageDetectionSignal :=
  signals.filter fun s => signalLanguage s = l

/-- The set of languages with a non-empty bucket, as one canonical
duplicate-free list. -/
def detectedLanguageSet (signals : List LanguageDetectionSignal) :
    List Language :=
  (signals.map signalLanguage).dedup

/-- `order` is a key order the grouping `HashMap` may yield: some
permutation of the detected-language set. -/
def admissibleOrder (order : List Language)
    (signals : List LanguageDetectionSignal) : Prop :=
  order.Perm (detectedLanguageSet signals)

/-- The `languages` vector of `detect_with_scope`, given the key order the
map produced: one `LanguageDetection::new` per yielded language over its
bucket. -/
def detectLanguagesOrdered (order : List Language)
    (signals : List LanguageDetectionSignal) : List LanguageDetection :=
  order.map fun l => LanguageDetection.new l (signalsForLanguage signals l)

/-- `TryFrom<&LanguageDetection> for VersionDetection`, with the per-signal
file parsing (`TryFrom<&LanguageDetectionSignal> for Vec<VersionInfo>`,
a pure function of the signal source, its path and the file contents)
abstracted as the argument `extract`; weak signals contribute nothing and a
detection with no versions is dropped, exactly as in the source. -/
def versionsOfDetection
    (extract : LanguageDetectionSource → List Char → List VersionInfo)
    (ld : LanguageDetection) : Option VersionDetection :=
  let vs := ld.sources.flatMap fun s =>
    match s with
    | .strong p src => extract src p
    | .weak _ => []
  if vs = [] then none else some ⟨ld.language, vs⟩

/-- The `languages` output of `detect_with_scope` as a function of the
collected path list and the map key order. -/
def detectPipelineLanguages (paths : List (List Char))
    (order : List Language) : List LanguageDetection :=
  detectLanguagesOrdered order (signalsOfPaths paths)

/-- The `versions` output of `detect_with_scope`: the languages vector
filtered through `VersionDetection::try_from`. -/
def detectPipelineVersions (paths : List (List Char)) (order : List Language)
    (extract : LanguageDetectionSource → List Char → List VersionInfo) :
    List VersionDetection :=
  (detectPipelineLanguages paths order).filterMap (versionsOfDetection extract)

/-! ## `detection/task_runner.rs`: the data the generator consumes -/

/-- `TaskRunner` from `detection/task_runner.rs`. -/
inductive TaskRunner where
  | make | just | task
  | npmScripts | vite | webpack | rspack | rollup | turbo | nx
  | tox | nox | invokeRunner
  | cargo | goTask
deriving DecidableEq

/-- `CommandExecutable` from `detection/task_runner.rs`. -/
inductive CommandExecutable where
  | direct (command : List Char)
  | packageManagerScript (scriptName scriptBody packageJsonPath : List Char)
deriving DecidableEq

/-- `TaskCommand` from `detection/task_runner.rs`. -/
structure TaskCommand where
  name : List Char
  executable : CommandExecutable
  description : Option (List Char)
deriving DecidableEq

/-- `TaskRunnerCommands` from `detection/task_runner.rs`. -/
structure TaskRunnerCommands where
  test : List TaskCommand
  build : List TaskCommand
  other : List TaskCommand
deriving DecidableEq

/-- `TaskRunnerDetection` from `detection/task_runner.rs` (the `source`
field is omitted: the generator reads only the runner, its path and the
command buckets). -/
structure TaskRunnerDetection where
  taskRunner : TaskRunner
  path : List Char
  commands : TaskRunnerCommands
deriving DecidableEq

/-! ## `generation/dev_flake.rs`: check collection -/

/-- `CheckCategory` from `generation/dev_flake.rs`. -/
inductive CheckCategory where
  | test | build
deriving DecidableEq

/-- `CheckSpec` from `generation/dev_flake.rs`. -/
structure CheckSpec where
  language : Option Language
  category : CheckCategory
  key : List Char
  derivationName : List Char
  display : List Char
  requiredExec : List Char
  command : List Char
  workdir : List Char
deriving DecidableEq

/-- `CommandInfo` from `generation/dev_flake.rs`. -/
structure CommandInfo where
  requiredExec : List Char
  command : List Char
  workdir : List Char
  display : List Char
deriving DecidableEq

/-- `char::to_ascii_lowercase`. -/
def toAsciiLower (c : Char) : Char :=
  if 65 ≤ c.toNat ∧ c.toNat ≤ 90 then Char.ofNat (c.toNat + 32) else c

/-- `char::is_ascii_alphanumeric`. -/
def isAsciiAlphanum (c : Char) : Bool :=
  (97 ≤ c.toNat && c.toNat ≤ 122) || (65 ≤ c.toNat && c.toNat ≤ 90) || isAsciiDigit c

/-- The character loop of `slugify_identifier`, carrying the `prev_dash`
flag: lowercased alphanumerics pass through, any other character becomes a
single dash. -/
def slugifyGo (prevDash : Bool) : List Char → List Char
  | [] => []
  | c :: rest =>
    let lower := toAsciiLower c
    if isAsciiAlphanum lower then lower :: slugifyGo false rest
    else if prevDash then slugifyGo true rest
    else '-' :: slugifyGo true rest

/-- `str::trim_matches('-')`. -/
def trimDashes (l : List Char) : List Char :=
  ((l.dropWhile (· = '-')).reverse.dropWhile (· = '-')).reverse

/-- `slugify_identifier` from `generation/dev_flake.rs`. -/
def slugify_identifier (input : List Char) : List Char :=
  trimDashes (slugifyGo false input)

/-- A digit character (callers only pass values below ten; the fallback arm
keeps the function total). -/
def digitChar : Nat → Char
  | 0 => '0' | 1 => '1' | 2 => '2' | 3 => '3' | 4 => '4'
  | 5 => '5' | 6 => '6' | 7 => '7' | 8 => '8' | _ => '9'

/-- Decimal rendering of a `usize` (the `{}` of `format!`), fuel bounded;
fuel `n + 1` always suffices since each step divides by ten. -/
def repr10Go : Nat → Nat → List Char
  | 0, _ => []
  | fuel + 1, n =>
    if n < 10 then [digitChar n] else repr10Go fuel (n / 10) ++ [digitChar (n % 10)]

/-- Decimal rendering of a `usize`. -/
def repr10 (n : Nat) : List Char := repr10Go (n + 1) n

/-- The key dedup step of `build_check_spec`: occurrence number `n` of a
base key keeps the bare key for `n = 1` and appends `-n` otherwise. -/
def encodeKey (b : List Char) (n : Nat) : List Char :=
  if 1 < n then b ++ '-' :: repr10 n else b

/-- The `key_counts` update of `build_check_spec`. -/
def bumpCount (counts : List Char → Nat) (b : List Char) : List Char → Nat :=
  fun k => if k = b then counts b + 1 else counts k

/-- The global key-deduplication of `build_check_spec` in isolation: each
base key is assigned its occurrence count and suffixed accordingly. -/
def assignKeysAux (counts : List Char → Nat) : List (List Char) → List (List Char)
  | [] => []
  | b :: rest => encodeKey b (counts b + 1) :: assignKeysAux (bumpCount counts b) rest

/-- Key assignment starting from the empty `key_counts` map. -/
def assignKeys (bases : List (List Char)) : List (List Char) :=
  assignKeysAux (fun _ => 0) bases

/-- `language_dir_name` from `generation/dev_flake.rs`. -/
def language_dir_name : Option Language → List Char
  | some l => l.dirName
  | none => ("generic").toList

/-- `category_name` from `generation/dev_flake.rs`. -/
def category_name : CheckCategory → List Char
  | .test => ("test").toList
  | .build => ("build").toList

/-- `task_runner_name(...).to_ascii_lowercase()` as used in
`build_check_spec`. -/
def taskRunnerNameLower : TaskRunner → List Char
  | .make => ("make").toList
  | .just => ("just").toList
  | .task => ("task").toList
  | .npmScripts => ("npmscripts").toList
  | .vite => ("vite").toList
  | .webpack => ("webpack").toList
  | .rspack => ("rspack").toList
  | .rollup => ("rollup").toList
  | .turbo => ("turbo").toList
  | .nx => ("nx").toList
  | .tox => ("tox").toList
  | .nox => ("nox").toList
  | .invokeRunner => ("invoke").toList
  | .cargo => ("cargo").toList
  | .goTask => ("gotask").toList

/-- `primary_language` from `generation/dev_flake.rs`: the detected-language
set has exactly one element. -/
def primaryLanguageOf (languages : List Language) : Option Language :=
  if languages.dedup.length = 1 then languages.head? else none

/-- `infer_check_language` from `generation/dev_flake.rs`. -/
def infer_check_language (tr : TaskRunner) (requiredExec : List Char)
    (primary : Option Language) : Option Language :=
  match tr with
  | .cargo => some .rust
  | .goTask => some .go
  | .npmScripts | .vite | .webpack | .rspack | .rollup | .turbo | .nx =>
    some .javascript
  | .tox | .nox | .invokeRunner => some .python
  | .make | .just | .task =>
    if requiredExec = ("cargo").toList then some .rust
    else if requiredExec = ("go").toList then some .go
    else if requiredExec = ("npm").toList ∨ requiredExec = ("pnpm").toList ∨
        requiredExec = ("yarn").toList ∨ requiredExec = ("bun").toList ∨
        requiredExec = ("node").toList then some .javascript
    else if requiredExec = ("python").toList ∨ requiredExec = ("python3").toList ∨
        requiredExec = ("tox").toList ∨ requiredExec = ("nox").toList ∨
        requiredExec = ("invoke").toList then some .python
    else primary

/-! ### JS package-manager resolution for script commands -/

/-- The filesystem facts `resolve_js_package_manager` consults: the
`packageManager` string field of the JSON manifest at a path (present only
when the file is readable and parses as JSON with that string field), and
plain file existence for the lockfile scan. -/
structure JsProjectEnv where
  packageManagerField : List Char → Option (List Char)
  fileExists : List Char → Bool

/-- `package_manager_str.split('@').next()`: the text before the first `@`. -/
def jsManagerName (s : List Char) : List Char := s.takeWhile (· ≠ '@')

/-- `read_package_json_manager` from `generation/dev_flake.rs`. -/
def read_package_json_manager (env : JsProjectEnv) (path : List Char) :
    Option PackageManager :=
  env.packageManagerField path >>= fun s =>
    let name := jsManagerName s
    if name = ("npm").toList then some .npm
    else if name = ("pnpm").toList then some .pnpm
    else if name = ("yarn").toList then some .yarn
    else if name = ("bun").toList then some .bun
    else none

/-- `std::path::Path::parent` on the string model: everything before the
last separator, the empty path for a bare file name, nothing for an empty
path. -/
def parentDirL (p : List Char) : Option (List Char) :=
  if p = [] then none
  else if ('/') ∈ p then
    some (p.take (p.length - (p.reverse.takeWhile (· ≠ '/')).length - 1))
  else some []

/-- `Path::join` on the string model (no trailing separators in inputs). -/
def joinPath (d f : List Char) : List Char :=
  if d = [] then f else d ++ '/' :: f

/-- `detect_lockfile_manager` from `generation/dev_flake.rs`. -/
def detect_lockfile_manager (env : JsProjectEnv) (dir : List Char) :
    Option PackageManager :=
  if env.fileExists (joinPath dir ("bun.lockb").toList) ||
      env.fileExists (joinPath dir ("bun.lock").toList) then some .bun
  else if env.fileExists (joinPath dir ("pnpm-lock.yaml").toList) then some .pnpm
  else if env.fileExists (joinPath dir ("yarn.lock").toList) then some .yarn
  else if env.fileExists (joinPath dir ("package-lock.json").toList) then some .npm
  else none

/-- `resolve_js_package_manager` from `generation/dev_flake.rs`: the
manifest-declared manager first, then the lockfile scan of the manifest
directory, then the npm default. -/
def resolve_js_package_manager (env : JsProjectEnv) (packageJsonPath : List Char) :
    PackageManager :=
  match read_package_json_manager env packageJsonPath with
  | some pm => pm
  | none =>
    match parentDirL packageJsonPath with
    | none => .npm
    | some parent => (detect_lockfile_manager env parent).getD .npm

/-- Modelled from the spec: `PackageManager::command_name` is declared
outside `src/` (only its call sites are in the tree).  Per the spec, the
required executable of a script command is the owning manager command; the
script path only ever receives the four JS managers below. -/
def PackageManager.commandName : PackageManager → Option (List Char)
  | .npm => some ("npm").toList
  | .pnpm => some ("pnpm").toList
  | .yarn => some ("yarn").toList
  | .bun => some ("bun").toList
  | _ => none

/-- Modelled from the spec: `PackageManager::run_script` is declared outside
`src/`.  Spec section 4.6 step 4 renders the manager-specific run-script
invocation form, and scenario B fixes it as `pnpm run test` for
`pnpm`/`test`; the same `<manager> run <script>` form is used for the four
JS managers. -/
def PackageManager.runScript (pm : PackageManager) (script : List Char) :
    Option (List Char) :=
  match pm with
  | .npm => some (("npm run ").toList ++ script)
  | .pnpm => some (("pnpm run ").toList ++ script)
  | .yarn => some (("yarn run ").toList ++ script)
  | .bun => some (("bun run ").toList ++ script)
  | _ => none

/-- `resolve_task_command` from `generation/dev_flake.rs`.  `rel` models
`relativize_path(root, ·)` (which consults the filesystem through
`canonicalize`); a direct command keeps its literal invocation, a script
command re-resolves its owning package manager and renders the run-script
form with the script body as a trailing display comment. -/
def resolve_task_command (env : JsProjectEnv)
    (rel : List Char → Option (List Char)) (cmd : TaskCommand) :
    CommandInfo × Option PackageManager :=
  match cmd.executable with
  | .direct command =>
    (⟨command_first_word command, command, (".").toList, command⟩, none)
  | .packageManagerScript scriptName scriptBody packageJsonPath =>
    let pm := resolve_js_package_manager env packageJsonPath
    let pmCmd := (pm.commandName).getD []
    let runCommand := (pm.runScript scriptName).getD (("npm run ").toList ++ scriptName)
    let workdir := ((parentDirL packageJsonPath).bind rel).getD ((".").toList)
    let display := runCommand ++ ("  # ").toList ++ scriptBody
    (⟨pmCmd, runCommand, workdir, display⟩, some pm)

/-- The derivation base key of `build_check_spec`:
`{lang}-{category}-{runner}-{slug(cmd.name)}-{runner_slug}`. -/
def checkBaseKey (language : Option Language) (category : CheckCategory)
    (tr : TaskRunner) (cmdName runnerSlug : List Char) : List Char :=
  language_dir_name language ++ '-' :: category_name category ++
    '-' :: taskRunnerNameLower tr ++ '-' :: slugify_identifier cmdName ++
    '-' :: runnerSlug

/-- `build_check_spec` from `generation/dev_flake.rs`. -/
def build_check_spec (cmd : TaskCommand) (cmdInfo : CommandInfo)
    (language : Option Language) (category : CheckCategory) (tr : TaskRunner)
    (runnerSlug : List Char) (counts : List Char → Nat) :
    CheckSpec × (List Char → Nat) :=
  let base := checkBaseKey language category tr cmd.name runnerSlug
  let key := encodeKey base (counts base + 1)
  (⟨language, category, key, ("check-").toList ++ key, cmdInfo.display,
    cmdInfo.requiredExec, cmdInfo.command, cmdInfo.workdir⟩,
   bumpCount counts base)

/-- The inner command loop of `collect_checks` for one category bucket,
threading `key_counts`.  The `required_package_managers` / `need_node` /
`need_python` accumulation of the source only feeds package-set emission,
not the check list, and is not modelled. -/
def emitForCmds (env : JsProjectEnv) (rel : List Char → Option (List Char))
    (primary : Option Language) (tr : TaskRunner) (runnerSlug : List Char)
    (category : CheckCategory) (counts : List Char → Nat) :
    List TaskCommand → List CheckSpec × (List Char → Nat)
  | [] => ([], counts)
  | cmd :: rest =>
    let resolved := resolve_task_command env rel cmd
    let language := infer_check_language tr resolved.1.requiredExec primary
    let built := build_check_spec cmd resolved.1 language category tr runnerSlug counts
    let tail := emitForCmds env rel primary tr runnerSlug category built.2 rest
    (built.1 :: tail.1, tail.2)

/-- The per-runner body of `collect_checks`: the test bucket then the build
bucket (the `other` bucket is never read). -/
def emitForRunner (env : JsProjectEnv) (rel : List Char → Option (List Char))
    (primary : Option Language) (counts : List Char → Nat)
    (tr : TaskRunnerDetection) : List CheckSpec × (List Char → Nat) :=
  let runnerPath := (rel tr.path).getD tr.path
  let runnerSlug := slugify_identifier runnerPath
  let testPart := emitForCmds env rel primary tr.taskRunner runnerSlug .test
    counts tr.commands.test
  let buildPart := emitForCmds env rel primary tr.taskRunner runnerSlug .build
    testPart.2 tr.commands.build
  (testPart.1 ++ buildPart.1, buildPart.2)

/-- The fold of `collect_checks` over all task runners. -/
def emitForRunners (env : JsProjectEnv) (rel : List Char → Option (List Char))
    (primary : Option Language) (counts : List Char → Nat) :
    List TaskRunnerDetection → List CheckSpec × (List Char → Nat)
  | [] => ([], counts)
  | tr :: rest =>
    let headPart := emitForRunner env rel primary counts tr
    let tail := emitForRunners env rel primary headPart.2 rest
    (headPart.1 ++ tail.1, tail.2)

/-- The metadata fields `collect_checks` reads. -/
structure GenMetadata where
  languages : List Language
  taskRunners : List TaskRunnerDetection
deriving DecidableEq

/-- `collect_checks` from `generation/dev_flake.rs`, as the flat list of
emitted check specs in emission order (the source then groups them by
language and category and sorts each group by key, which reorders but
neither adds nor drops checks). -/
def collect_checks (env : JsProjectEnv) (rel : List Char → Option (List Char))
    (md : GenMetadata) : List CheckSpec :=
  (emitForRunners env rel (primaryLanguageOf md.languages) (fun _ => 0)
    md.taskRunners).1

/-! ## Derived notions used by the statements and proofs -/

/-- Whether a signal is strong. -/
def isStrongSignal : LanguageDetectionSignal → Bool
  | .strong _ _ => true
  | .weak _ => false

/-- A nonempty character list whose final character is not an ASCII digit.
Every check base key ends with the runner-path slug, whose final character
is a letter of the runner file name, so base keys satisfy this. -/
def endsNonDigit (l : List Char) : Bool :=
  match l.getLast? with
  | none => false
  | some c => !isAsciiDigit c

/-- `bumpCount` iterated over a list of base keys: the `key_counts` state
after processing them. -/
def bumpCounts (counts : List Char → Nat) : List (List Char) → (List Char → Nat)
  | [] => counts
  | b :: rest => bumpCounts (bumpCount counts b) rest

/-- Each base key paired with its occurrence number, in processing order:
the pairs `assignKeysAux` encodes through `encodeKey`. -/
def occListAux (counts : List Char → Nat) :
    List (List Char) → List (List Char × Nat)
  | [] => []
  | b :: rest => (b, counts b + 1) :: occListAux (bumpCount counts b) rest

/-- The base key `build_check_spec` computes for one command of one runner
bucket. -/
def baseKeyOfCmd (env : JsProjectEnv) (rel : List Char → Option (List Char))
    (primary : Option Language) (tr : TaskRunner) (runnerSlug : List Char)
    (category : CheckCategory) (cmd : TaskCommand) : List Char :=
  checkBaseKey
    (infer_check_language tr (resolve_task_command env rel cmd).1.requiredExec primary)
    category tr cmd.name runnerSlug

/-- The base keys one runner contributes, in emission order. -/
def runnerBaseKeys (env : JsProjectEnv) (rel : List Char → Option (List Char))
    (primary : Option Language) (tr : TaskRunnerDetection) : List (List Char) :=
  let runnerSlug := slugify_identifier ((rel tr.path).getD tr.path)
  tr.commands.test.map (baseKeyOfCmd env rel primary tr.taskRunner runnerSlug .test) ++
  tr.commands.build.map (baseKeyOfCmd env rel primary tr.taskRunner runnerSlug .build)

/-- All base keys of a metadata record, in emission order. -/
def allBaseKeys (env : JsProjectEnv) (rel : List Char → Option (List Char))
    (md : GenMetadata) : List (List Char) :=
  md.taskRunners.flatMap (runnerBaseKeys env rel (primaryLanguageOf md.languages))

/-- A task-runner detection with its `other` bucket emptied. -/
def clearOther (tr : TaskRunnerDetection) : TaskRunnerDetection :=
  { tr with commands := { tr.commands with other := [] } }

/-- Total number of test and build commands across all runners. -/
def totalTestBuild (md : GenMetadata) : Nat :=
  (md.taskRunners.map fun tr =>
    tr.commands.test.length + tr.commands.build.length).sum

/-! ## Theorems -/

theorem escape_unchanged (c : Char) (s : List Char) (h1 : c ≠ '\\')
    (h2 : c ≠ '"') (h3 : c ≠ '\n') (h4 : c ≠ '\r') (h5 : c ≠ '\t')
    (h6 : ¬(c = '$' ∧ s.head? = some '{')) :
    escape_nix_string (c :: s) = c :: escape_nix_string s := by
  simp [escape_nix_string, h1, h2, h3, h4, h5, h6]

theorem unescape_cons_ne (c : Char) (l : List Char) (h : c ≠ '\\') :
    unescapeNix (c :: l) = c :: unescapeNix l := by
  rw [unescapeNix.eq_def]
  simp [h]

theorem unescape_esc (d : Char) (l : List Char) :
    unescapeNix ('\\' :: d :: l) = decodeNixEscape d :: unescapeNix l := by
  rw [unescapeNix.eq_def]
  simp

theorem unescape_escape (s : List Char) :
    unescapeNix (escape_nix_string s) = s := by
  induction s with
  | nil => rfl
  | cons c rest ih =>
    by_cases h1 : c = '\\'
    · subst h1
      have he : escape_nix_string ('\\' :: rest) = '\\' :: '\\' :: escape_nix_string rest := by
        simp [escape_nix_string]
      rw [he, unescape_esc]; simp [decodeNixEscape, ih]
    by_cases h2 : c = '"'
    · subst h2
      have he : escape_nix_string ('"' :: rest) = '\\' :: '"' :: escape_nix_string rest := by
        simp [escape_nix_string]
      rw [he, unescape_esc]; simp [decodeNixEscape, ih]
    by_cases h3 : c = '\n'
    · subst h3
      have he : escape_nix_string ('\n' :: rest) = '\\' :: 'n' :: escape_nix_string rest := by
        simp [escape_nix_string]
      rw [he, unescape_esc]; simp [decodeNixEscape, ih]
    by_cases h4 : c = '\r'
    · subst h4
      have he : escape_nix_string ('\r' :: rest) = '\\' :: 'r' :: escape_nix_string rest := by
        simp [escape_nix_string]
      rw [he, unescape_esc]; simp [decodeNixEscape, ih]
    by_cases h5 : c = '\t'
    · subst h5
      have he : escape_nix_string ('\t' :: rest) = '\\' :: 't' :: escape_nix_string rest := by
        simp [escape_nix_string]
      rw [he, unescape_esc]; simp [decodeNixEscape, ih]
    by_cases h6 : c = '$' ∧ rest.head? = some '{'
    · obtain ⟨hc, hh⟩ := h6
      subst hc
      have he : escape_nix_string ('$' :: rest) = '\\' :: '$' :: escape_nix_string rest := by
        simp [escape_nix_string, hh]
      rw [he, unescape_esc]; simp [decodeNixEscape, ih]
    · rw [escape_unchanged c rest h1 h2 h3 h4 h5 h6, unescape_cons_ne c _ h1, ih]

/-- Claim C3: the shared escaping utility escapes every backslash, quote,
newline, carriage return, tab and every `$` immediately followed by `{`,
leaves every other character unchanged, and is therefore injective, with
unescaping per the target string grammar recovering the input exactly; in
particular a dollar-brace gains a leading backslash and a backslash is
doubled. -/
theorem c3_escape_spec :
    (∀ s, unescapeNix (escape_nix_string s) = s) ∧
    (∀ s t, escape_nix_string s = escape_nix_string t → s = t) ∧
    (∀ s, escape_nix_string ('\\' :: s) = '\\' :: '\\' :: escape_nix_string s) ∧
    (∀ s, escape_nix_string ('"' :: s) = '\\' :: '"' :: escape_nix_string s) ∧
    (∀ s, escape_nix_string ('\n' :: s) = '\\' :: 'n' :: escape_nix_string s) ∧
    (∀ s, escape_nix_string ('\r' :: s) = '\\' :: 'r' :: escape_nix_string s) ∧
    (∀ s, escape_nix_string ('\t' :: s) = '\\' :: 't' :: escape_nix_string s) ∧
    (∀ s, escape_nix_string ('$' :: '{' :: s) =
      '\\' :: '$' :: '{' :: escape_nix_string s) ∧
    (∀ c s, c ≠ '\\' → c ≠ '"' → c ≠ '\n' → c ≠ '\r' → c ≠ '\t' →
      ¬(c = '$' ∧ s.head? = some '{') →
      escape_nix_string (c :: s) = c :: escape_nix_string s) ∧
    escape_nix_string ("$\x7bfoo\x7d").toList = ("\\$\x7bfoo\x7d").toList ∧
    escape_nix_string ("a\\b").toList = ("a\\\\b").toList := by
  refine ⟨unescape_escape, ?_, ?_, ?_, ?_, ?_, ?_, ?_, escape_unchanged, ?_, ?_⟩
  · intro s t h
    have := congrArg unescapeNix h
    rwa [unescape_escape, unescape_escape] at this
  · intro s; simp [escape_nix_string]
  · intro s; simp [escape_nix_string]
  · intro s; simp [escape_nix_string]
  · intro s; simp [escape_nix_string]
  · intro s; simp [escape_nix_string]
  · intro s; simp [escape_nix_string]
  · decide
  · decide

/-- Witness for C3: the unchanged-character clause applied at a concrete
character and string. -/
theorem c3_escape_spec_witness :
    escape_nix_string ('z' :: ("$x").toList) = 'z' :: escape_nix_string ("$x").toList :=
  c3_escape_spec.2.2.2.2.2.2.2.2.1 'z' (("$x").toList) (by decide) (by decide)
    (by decide) (by decide) (by decide) (by decide)

theorem dedupSignals_sublist (l : List LanguageDetectionSignal) :
    ∀ seen, (dedupSignals seen l).Sublist l := by
  induction l with
  | nil => intro seen; simp [dedupSignals]
  | cons s rest ih =>
    intro seen
    cases s with
    | strong p src => exact (ih seen).cons₂ _
    | weak src =>
      by_cases h : src ∈ seen
      · simp only [dedupSignals, if_pos h]
        exact (ih seen).cons _
      · simp only [dedupSignals, if_neg h]
        exact (ih (src :: seen)).cons₂ _

theorem dedupSignals_filter_strong (l : List LanguageDetectionSignal) :
    ∀ seen, (dedupSignals seen l).filter isStrongSignal = l.filter isStrongSignal := by
  induction l with
  | nil => intro seen; simp [dedupSignals]
  | cons s rest ih =>
    intro seen
    cases s with
    | strong p src =>
      simp [dedupSignals, List.filter, isStrongSignal, ih seen]
    | weak src =>
      by_cases h : src ∈ seen
      · simp [dedupSignals, if_pos h, List.filter, isStrongSignal, ih seen]
      · simp [dedupSignals, if_neg h, List.filter, isStrongSignal, ih (src :: seen)]

theorem dedupSignals_weak_count (l : List LanguageDetectionSignal) :
    ∀ seen src,
      ((dedupSignals seen l).filter
        (fun s => s = LanguageDetectionSignal.weak src)).length =
      if src ∈ seen then 0
      else if LanguageDetectionSignal.weak src ∈ l then 1 else 0 := by
  induction l with
  | nil =>
    intro seen src
    simp [dedupSignals]
  | cons s rest ih =>
    intro seen src
    cases s with
    | strong p src2 =>
      simp [dedupSignals, List.filter_cons, ih seen src]
    | weak src2 =>
      by_cases h : src2 ∈ seen
      · by_cases hs : src = src2
        · subst hs
          simp [dedupSignals, h, ih seen src]
        · simp [dedupSignals, h, ih seen src, hs]
      · by_cases hs : src = src2
        · subst hs
          simp [dedupSignals, h, List.filter_cons, ih (src :: seen) src]
        · simp [dedupSignals, h, List.filter_cons, ih (src2 :: seen) src, hs,
            Ne.symm hs]

/-- Claim C5: `LanguageDetection::new` keeps retained signals in their
original relative order, preserves every strong signal, and keeps exactly
one weak signal per source tag that occurs (collapsing N occurrences to
one). -/
theorem c5_dedup_spec (language : Language)
    (sources : List LanguageDetectionSignal) :
    ((LanguageDetection.new language sources).sources).Sublist sources ∧
    ((LanguageDetection.new language sources).sources).filter isStrongSignal =
      sources.filter isStrongSignal ∧
    ∀ src,
      (((LanguageDetection.new language sources).sources).filter
        (fun s => s = LanguageDetectionSignal.weak src)).length =
      if LanguageDetectionSignal.weak src ∈ sources then 1 else 0 := by
  refine ⟨dedupSignals_sublist sources [], dedupSignals_filter_strong sources [], ?_⟩
  intro src
  have := dedupSignals_weak_count sources [] src
  simpa [LanguageDetection.new] using this

theorem parse_constraint_ne_wildcard (s : List Char) :
    (parse_constraint s).1 ≠ VersionConstraint.wildcard := by
  unfold parse_constraint
  split <;> simp

/-- Claim C6 (counterexample): the version components parse independently,
so `1.x.5` yields a result whose minor field is absent while its patch
field is present — refuting "an absent minor field implies an absent patch
field". -/
theorem c6_counterexample :
    parse_semantic_version ("1.x.5").toList =
      some ⟨some 1, none, some 5, none, none, .exact⟩ := by
  decide

/-- Claim C6 (amended): a bare `*` (after prefix normalisation) parses to
the wildcard constraint with major, minor and patch all absent, overriding
the operator scan, and the wildcard constraint arises only that way; the
left-to-right stop-at-first-unparsable reading is dropped — components
parse independently, so an absent minor does not force an absent patch. -/
theorem c6_wildcard_spec :
    (∀ raw v, parse_semantic_version raw = some v →
      v.constraint = VersionConstraint.wildcard →
      v.major = none ∧ v.minor = none ∧ v.patch = none) ∧
    (∀ raw, normalizeVersionInput raw = ['*'] →
      parse_semantic_version raw = some wildcardVersion) ∧
    parse_semantic_version ("*").toList = some wildcardVersion ∧
    wildcardVersion.major = none ∧ wildcardVersion.minor = none ∧
    wildcardVersion.patch = none := by
  refine ⟨?_, ?_, by decide, rfl, rfl, rfl⟩
  · intro raw v hv hw
    unfold parse_semantic_version at hv
    by_cases ht : normalizeVersionInput raw = ['*']
    · rw [if_pos ht] at hv
      cases hv
      exact ⟨rfl, rfl, rfl⟩
    · rw [if_neg ht] at hv
      by_cases hemp : (parse_constraint (normalizeVersionInput raw)).2 = []
      · rw [if_pos hemp] at hv
        cases hv
      · rw [if_neg hemp] at hv
        split at hv
        · exact absurd hv (by simp)
        · cases hv
          exact absurd hw (parse_constraint_ne_wildcard _)
  · intro raw h
    simp [parse_semantic_version, h]

/-- Witness for C6: the wildcard clauses applied at `*` and at a prefixed
spelling that normalises to `*`. -/
theorem c6_wildcard_spec_witness :
    (wildcardVersion.major = none ∧ wildcardVersion.minor = none ∧
      wildcardVersion.patch = none) ∧
    parse_semantic_version (" v* ").toList = some wildcardVersion :=
  ⟨c6_wildcard_spec.1 (("*").toList) wildcardVersion (by decide) rfl,
   c6_wildcard_spec.2.1 ((" v* ").toList) (by decide)⟩

theorem lexLe_refl (a : Nat × Nat × Nat) : lexLe a a := by
  unfold lexLe; omega

theorem lexLe_trans {a b c : Nat × Nat × Nat} (h1 : lexLe a b) (h2 : lexLe b c) :
    lexLe a c := by
  unfold lexLe at *; omega

theorem lexLt_le {a b : Nat × Nat × Nat} (h : lexLt a b) : lexLe a b := by
  unfold lexLt at h; unfold lexLe; omega

theorem not_lexLt {a b : Nat × Nat × Nat} (h : ¬lexLt a b) : lexLe b a := by
  unfold lexLt at h; unfold lexLe; omega

theorem maxByKeyAcc_spec {α : Type} (key : α → Nat × Nat × Nat) (l : List α) :
    ∀ acc v, maxByKeyAcc key acc l = some v →
      (v ∈ l ∨ acc = some v) ∧ (∀ w ∈ l, lexLe (key w) (key v)) ∧
      (∀ a, acc = some a → lexLe (key a) (key v)) := by
  induction l with
  | nil =>
    intro acc v h
    refine ⟨Or.inr h, by simp, ?_⟩
    intro a ha
    rw [ha] at h
    cases h
    exact lexLe_refl _
  | cons x rest ih =>
    intro acc v h
    rw [maxByKeyAcc.eq_def] at h
    cases acc with
    | none =>
      have h2 : maxByKeyAcc key (some x) rest = some v := h
      obtain ⟨hmem, hall, hacc⟩ := ih (some x) v h2
      refine ⟨?_, ?_, ?_⟩
      · rcases hmem with hm | hm
        · exact Or.inl (List.mem_cons_of_mem _ hm)
        · cases hm; exact Or.inl (List.mem_cons_self _ _)
      · intro w hw
        rcases List.mem_cons.mp hw with hw | hw
        · subst hw; exact hacc w rfl
        · exact hall w hw
      · intro a ha; cases ha
    | some a0 =>
      have h2 : maxByKeyAcc key
          (if lexLt (key x) (key a0) then some a0 else some x) rest = some v := h
      by_cases hlt : lexLt (key x) (key a0)
      · rw [if_pos hlt] at h2
        obtain ⟨hmem, hall, hacc⟩ := ih (some a0) v h2
        refine ⟨?_, ?_, ?_⟩
        · rcases hmem with hm | hm
          · exact Or.inl (List.mem_cons_of_mem _ hm)
          · exact Or.inr hm
        · intro w hw
          rcases List.mem_cons.mp hw with hw | hw
          · subst hw; exact lexLe_trans (lexLt_le hlt) (hacc a0 rfl)
          · exact hall w hw
        · intro a ha
          cases ha
          exact hacc a0 rfl
      · rw [if_neg hlt] at h2
        obtain ⟨hmem, hall, hacc⟩ := ih (some x) v h2
        refine ⟨?_, ?_, ?_⟩
        · rcases hmem with hm | hm
          · exact Or.inl (List.mem_cons_of_mem _ hm)
          · cases hm; exact Or.inl (List.mem_cons_self _ _)
        · intro w hw
          rcases List.mem_cons.mp hw with hw | hw
          · subst hw; exact hacc w rfl
          · exact hall w hw
        · intro a ha
          cases ha
          exact lexLe_trans (not_lexLt hlt) (hacc x rfl)

theorem maxByKey_spec {α : Type} (key : α → Nat × Nat × Nat) (l : List α)
    (v : α) (h : maxByKey key l = some v) :
    v ∈ l ∧ ∀ w ∈ l, lexLe (key w) (key v) := by
  obtain ⟨hmem, hall, _⟩ := maxByKeyAcc_spec key l none v h
  rcases hmem with hm | hm
  · exact ⟨hm, hall⟩
  · cases hm

/-- Claim C2 (counterexample): on `1.x.5 || 1.0.0` the or-parser returns the
`1.0.0` alternative even though the `1.x.5` alternative has the strictly
greater `(major, minor, patch)` tuple once absent fields are read as zero —
the selection is not the absent-as-zero maximum the claim describes. -/
theorem c2_counterexample :
    parse_version_or_expression ("1.x.5 || 1.0.0").toList =
      some ⟨some 1, some 0, some 0, none, none, .exact⟩ ∧
    (⟨some 1, none, some 5, none, none, .exact⟩ : SemanticVersion) ∈
      orAlternatives ("1.x.5 || 1.0.0").toList ∧
    lexLt (zeroTuple ⟨some 1, some 0, some 0, none, none, .exact⟩)
      (zeroTuple ⟨some 1, none, some 5, none, none, .exact⟩) := by
  refine ⟨by decide, by decide, by decide⟩

/-- Claim C2 (amended): an or-expression parses each alternative
independently and keeps the alternative whose `(major, minor, patch)` tuple
is lexicographically greatest under the order in which an absent field
compares below every present one (`None < Some 0`); best-version selection
across the `VersionInfo` of one ecosystem instead maximises the tuple with
absent fields read as zero; `>=16.0.0 || >=18.0.0` still resolves to major
18 with its `>=` constraint. -/
theorem c2_or_selection_spec :
    (∀ raw v, containsOrSep raw = true →
      parse_version_or_expression raw = some v →
      v ∈ orAlternatives raw ∧
        ∀ w ∈ orAlternatives raw, lexLe (optTuple w) (optTuple v)) ∧
    (∀ vds lang allowed v, best_version_info vds lang allowed = some v →
      v ∈ eligibleVersions vds lang allowed ∧
        ∀ w ∈ eligibleVersions vds lang allowed, lexLe (bviKey w) (bviKey v)) ∧
    (parse_version_or_expression (">=16.0.0 || >=18.0.0").toList).map
      SemanticVersion.major = some (some 18) ∧
    (parse_version_or_expression (">=16.0.0 || >=18.0.0").toList).map
      SemanticVersion.constraint = some .greaterOrEqual := by
  refine ⟨?_, ?_, by decide, by decide⟩
  · intro raw v hc hp
    unfold parse_version_or_expression at hp
    rw [hc] at hp
    simp only [Bool.true_eq_false, if_false] at hp
    exact maxByKey_spec optTuple _ v hp
  · intro vds lang allowed v h
    unfold best_version_info at h
    unfold eligibleVersions
    cases hf : vds.find? (fun vd => vd.language = lang) with
    | none => rw [hf] at h; cases h
    | some vd =>
      rw [hf] at h
      exact maxByKey_spec bviKey _ v h

/-- Witness for C2: the or-selection clause applied at the 16/18 input and
the best-version clause applied at a concrete two-version detection. -/
theorem c2_or_selection_spec_witness :
    ((⟨some 18, some 0, some 0, none, none, .greaterOrEqual⟩ : SemanticVersion) ∈
      orAlternatives (">=16.0.0 || >=18.0.0").toList ∧
      ∀ w ∈ orAlternatives (">=16.0.0 || >=18.0.0").toList,
        lexLe (optTuple w)
          (optTuple ⟨some 18, some 0, some 0, none, none, .greaterOrEqual⟩)) ∧
    ((⟨("1.21").toList, some ⟨some 1, some 21, none, none, none, .exact⟩,
        .goModDirective, ("go.mod").toList⟩ : VersionInfo) ∈
      eligibleVersions
        [⟨.go,
          [⟨("1.19").toList, some ⟨some 1, some 19, none, none, none, .exact⟩,
            .goVersionFile, (".go-version").toList⟩,
           ⟨("1.21").toList, some ⟨some 1, some 21, none, none, none, .exact⟩,
            .goModDirective, ("go.mod").toList⟩]⟩]
        .go [.goModDirective, .goVersionFile]) :=
  ⟨c2_or_selection_spec.1 ((">=16.0.0 || >=18.0.0").toList)
      ⟨some 18, some 0, some 0, none, none, .greaterOrEqual⟩ (by decide) (by decide),
   (c2_or_selection_spec.2.1
      [⟨.go,
        [⟨("1.19").toList, some ⟨some 1, some 19, none, none, none, .exact⟩,
          .goVersionFile, (".go-version").toList⟩,
         ⟨("1.21").toList, some ⟨some 1, some 21, none, none, none, .exact⟩,
          .goModDirective, ("go.mod").toList⟩]⟩]
      .go [.goModDirective, .goVersionFile]
      ⟨("1.21").toList, some ⟨some 1, some 21, none, none, none, .exact⟩,
        .goModDirective, ("go.mod").toList⟩ (by decide)).1⟩

theorem walkAux_nil (fs : FsModel) (scope : DetectionScope) (root : List Char)
    (fuel : Nat) : walkAux fs scope root fuel [] = [] := by
  cases fuel <;> rfl

/-- Claim C7: a root that is not a directory on the filesystem (in
particular a nonexistent root) makes the walker yield exactly the root
itself without failing, and for every root the first yielded element is the
root. -/
theorem c7_walker_spec :
    (∀ (fs : FsModel) (scope : DetectionScope) (root : List Char) (fuel : Nat),
      fs.isDir root = false → fuel ≠ 0 →
      walkPaths fs scope root fuel = [root]) ∧
    (∀ (fs : FsModel) (scope : DetectionScope) (root : List Char) (fuel : Nat),
      fuel ≠ 0 → (walkPaths fs scope root fuel).head? = some root) := by
  constructor
  · intro fs scope root fuel h hf
    cases fuel with
    | zero => exact absurd rfl hf
    | succ f =>
      cases scope <;>
        simp [walkPaths, walkAux, h, walkAux_nil]
  · intro fs scope root fuel hf
    cases fuel with
    | zero => exact absurd rfl hf
    | succ f =>
      cases scope <;> simp [walkPaths, walkAux]

/-- Witness for C7: a nonexistent root on an empty filesystem model. -/
theorem c7_walker_spec_witness :
    walkPaths ⟨fun _ => false, fun _ => none⟩ .all ("/missing/root").toList 1 =
      [("/missing/root").toList] ∧
    (walkPaths ⟨fun _ => false, fun _ => none⟩ .all ("/missing/root").toList 1).head? =
      some (("/missing/root").toList) :=
  ⟨c7_walker_spec.1 ⟨fun _ => false, fun _ => none⟩ .all (("/missing/root").toList) 1
      rfl (by decide),
   c7_walker_spec.2 ⟨fun _ => false, fun _ => none⟩ .all (("/missing/root").toList) 1
      (by decide)⟩

/-- Claim C8: for a pyproject manifest that parses, each recognized tool
sub-table contributes its own entry (several at once when several are
present), and with no recognized tool the handler returns exactly one
fallback pip entry.  The length identity counts one entry per recognized
tool plus the fallback exactly when none is recognized. -/
theorem c8_pyproject_spec (doc : PyprojectDoc) (path : List Char) :
    (doc.hasToolPoetry = false → doc.hasToolPdm = false → doc.hasToolUv = false →
      doc.hasDependencyGroups = false →
      detect_from_pyproject_toml doc path =
        [⟨.pip, .pyprojectToml, path, none⟩]) ∧
    ((⟨.poetry, .pyprojectToml, path, none⟩ : PackageManagerInfo) ∈
        detect_from_pyproject_toml doc path ↔ doc.hasToolPoetry = true) ∧
    ((⟨.pdm, .pyprojectToml, path, none⟩ : PackageManagerInfo) ∈
        detect_from_pyproject_toml doc path ↔ doc.hasToolPdm = true) ∧
    ((⟨.uv, .pyprojectToml, path, none⟩ : PackageManagerInfo) ∈
        detect_from_pyproject_toml doc path ↔
        (doc.hasToolUv = true ∨ doc.hasDependencyGroups = true)) ∧
    (detect_from_pyproject_toml doc path).length =
      (if doc.hasToolPoetry then 1 else 0) + (if doc.hasToolPdm then 1 else 0) +
      (if doc.hasToolUv || doc.hasDependencyGroups then 1 else 0) +
      (if doc.hasToolPoetry || doc.hasToolPdm || doc.hasToolUv ||
          doc.hasDependencyGroups then 0 else 1) := by
  obtain ⟨p1, p2, p3, p4⟩ := doc
  cases p1 <;> cases p2 <;> cases p3 <;> cases p4 <;>
    simp [detect_from_pyproject_toml]

/-- Witness for C8: the no-recognized-tool clause at the all-absent
document. -/
theorem c8_pyproject_spec_witness :
    detect_from_pyproject_toml ⟨false, false, false, false⟩ ("pyproject.toml").toList =
      [⟨.pip, .pyprojectToml, ("pyproject.toml").toList, none⟩] :=
  (c8_pyproject_spec ⟨false, false, false, false⟩ (("pyproject.toml").toList)).1
    rfl rfl rfl rfl

/-- Claim C9: a manifest declaring `pnpm@9.0.0` makes the generator resolve
the owning package manager from the declared field — regardless of any
lockfiles in the manifest directory — and render the `scripts.test` entry
`jest` as the invocation `pnpm run test`, with `jest` preserved in the
display string as a trailing comment and `pnpm` as the required
executable. -/
theorem c9_pnpm_script_spec (env : JsProjectEnv)
    (rel : List Char → Option (List Char))
    (h : env.packageManagerField (("package.json").toList) =
      some (("pnpm@9.0.0").toList)) :
    (resolve_task_command env rel
        ⟨("test").toList,
         .packageManagerScript (("test").toList) (("jest").toList)
           (("package.json").toList), none⟩).1.command =
      ("pnpm run test").toList ∧
    (resolve_task_command env rel
        ⟨("test").toList,
         .packageManagerScript (("test").toList) (("jest").toList)
           (("package.json").toList), none⟩).1.display =
      ("pnpm run test  # jest").toList ∧
    (resolve_task_command env rel
        ⟨("test").toList,
         .packageManagerScript (("test").toList) (("jest").toList)
           (("package.json").toList), none⟩).1.requiredExec =
      ("pnpm").toList ∧
    (resolve_task_command env rel
        ⟨("test").toList,
         .packageManagerScript (("test").toList) (("jest").toList)
           (("package.json").toList), none⟩).2 = some .pnpm := by
  have hr : read_package_json_manager env (("package.json").toList) = some .pnpm := by
    unfold read_package_json_manager
    rw [h]
    decide
  have hpm : resolve_js_package_manager env (("package.json").toList) = .pnpm := by
    unfold resolve_js_package_manager
    rw [hr]
  have hpm2 : resolve_js_package_manager env
      ['p', 'a', 'c', 'k', 'a', 'g', 'e', '.', 'j', 's', 'o', 'n'] =
      PackageManager.pnpm := hpm
  refine ⟨?_, ?_, ?_, ?_⟩ <;>
    simp [resolve_task_command, hpm2, PackageManager.runScript,
      PackageManager.commandName]

/-- Witness for C9: a concrete environment whose manifest declares
`pnpm@9.0.0` over a directory that also contains every lockfile. -/
theorem c9_pnpm_script_spec_witness :
    (resolve_task_command
        ⟨fun p => if p = ("package.json").toList
            then some (("pnpm@9.0.0").toList) else none,
          fun _ => true⟩
        (fun p => some p)
        ⟨("test").toList,
         .packageManagerScript (("test").toList) (("jest").toList)
           (("package.json").toList), none⟩).1.command =
      ("pnpm run test").toList :=
  (c9_pnpm_script_spec
    ⟨fun p => if p = ("package.json").toList
        then some (("pnpm@9.0.0").toList) else none,
      fun _ => true⟩
    (fun p => some p) (by decide)).1

/-- Claim C1 (counterexample): with the unchanged tree containing `go.mod`
and `main.rs`, both `[go, rust]` and `[rust, go]` are orders the grouping
map may yield across two runs (its key order is randomly seeded per map
instance), and they produce differently ordered `languages` collections —
so byte-identical same-order output is not guaranteed. -/
theorem c1_counterexample :
    admissibleOrder [Language.go, Language.rust]
      (signalsOfPaths [("go.mod").toList, ("main.rs").toList]) ∧
    admissibleOrder [Language.rust, Language.go]
      (signalsOfPaths [("go.mod").toList, ("main.rs").toList]) ∧
    detectPipelineLanguages [("go.mod").toList, ("main.rs").toList]
        [Language.go, Language.rust] ≠
      detectPipelineLanguages [("go.mod").toList, ("main.rs").toList]
        [Language.rust, Language.go] := by
  refine ⟨?_, ?_, by decide⟩
  · unfold admissibleOrder
    decide
  · unfold admissibleOrder
    decide

/-- Claim C1 (amended): over the same unchanged path list the two runs
agree up to the order of the per-language groups: the `languages` and
`versions` collections of the two runs are permutations of each other
(each group itself is identical, being a function of the path list alone). -/
theorem c1_detect_perm_spec (paths : List (List Char))
    (extract : LanguageDetectionSource → List Char → List VersionInfo)
    (o₁ o₂ : List Language)
    (h1 : admissibleOrder o₁ (signalsOfPaths paths))
    (h2 : admissibleOrder o₂ (signalsOfPaths paths)) :
    (detectPipelineLanguages paths o₁).Perm (detectPipelineLanguages paths o₂) ∧
    (detectPipelineVersions paths o₁ extract).Perm
      (detectPipelineVersions paths o₂ extract) := by
  have hp : o₁.Perm o₂ := h1.trans h2.symm
  constructor
  · exact hp.map _
  · exact List.Perm.filterMap _ (hp.map _)

/-- Witness for C1: the amended statement at the two concrete orders of the
counterexample tree. -/
theorem c1_detect_perm_spec_witness :
    (detectPipelineLanguages [("go.mod").toList, ("main.rs").toList]
        [Language.go, Language.rust]).Perm
      (detectPipelineLanguages [("go.mod").toList, ("main.rs").toList]
        [Language.rust, Language.go]) :=
  (c1_detect_perm_spec [("go.mod").toList, ("main.rs").toList]
    (fun _ _ => []) [Language.go, Language.rust] [Language.rust, Language.go]
    (by unfold admissibleOrder; decide) (by unfold admissibleOrder; decide)).1

theorem emitForCmds_mem_category (env : JsProjectEnv)
    (rel : List Char → Option (List Char)) (primary : Option Language)
    (tr : TaskRunner) (slug : List Char) (category : CheckCategory) :
    ∀ (cmds : List TaskCommand) (counts : List Char → Nat)
      (spec : CheckSpec),
      spec ∈ (emitForCmds env rel primary tr slug category counts cmds).1 →
      spec.category = category := by
  intro cmds
  induction cmds with
  | nil =>
    intro counts spec h
    simp [emitForCmds] at h
  | cons cmd rest ih =>
    intro counts spec h
    simp only [emitForCmds] at h
    rcases List.mem_cons.mp h with heq | hm
    · subst heq; rfl
    · exact ih _ spec hm

theorem emitForCmds_length (env : JsProjectEnv)
    (rel : List Char → Option (List Char)) (primary : Option Language)
    (tr : TaskRunner) (slug : List Char) (category : CheckCategory) :
    ∀ (cmds : List TaskCommand) (counts : List Char → Nat),
      (emitForCmds env rel primary tr slug category counts cmds).1.length =
        cmds.length := by
  intro cmds
  induction cmds with
  | nil => intro counts; rfl
  | cons cmd rest ih =>
    intro counts
    simp only [emitForCmds, List.length_cons]
    rw [ih]

theorem emitForRunner_clearOther (env : JsProjectEnv)
    (rel : List Char → Option (List Char)) (primary : Option Language)
    (counts : List Char → Nat) (tr : TaskRunnerDetection) :
    emitForRunner env rel primary counts (clearOther tr) =
      emitForRunner env rel primary counts tr := by
  obtain ⟨runner, path, test, build, other⟩ := tr
  rfl

theorem emitForRunners_clearOther (env : JsProjectEnv)
    (rel : List Char → Option (List Char)) (primary : Option Language) :
    ∀ (trs : List TaskRunnerDetection) (counts : List Char → Nat),
      emitForRunners env rel primary counts (trs.map clearOther) =
        emitForRunners env rel primary counts trs := by
  intro trs
  induction trs with
  | nil => intro counts; rfl
  | cons tr rest ih =>
    intro counts
    simp only [List.map_cons, emitForRunners]
    rw [emitForRunner_clearOther, ih]

/-- Claim C10: checks come only from the test and build buckets: every
emitted check has category Test or Build, emptying every runner's `other`
bucket leaves the check list untouched, and the number of checks equals the
total number of test and build commands. -/
theorem c10_category_spec (env : JsProjectEnv)
    (rel : List Char → Option (List Char)) (md : GenMetadata) :
    (∀ spec ∈ collect_checks env rel md,
      spec.category = CheckCategory.test ∨ spec.category = CheckCategory.build) ∧
    collect_checks env rel ⟨md.languages, md.taskRunners.map clearOther⟩ =
      collect_checks env rel md ∧
    (collect_checks env rel md).length = totalTestBuild md := by
  refine ⟨?_, ?_, ?_⟩
  · suffices h : ∀ (trs : List TaskRunnerDetection) (counts : List Char → Nat)
        (spec : CheckSpec),
        spec ∈ (emitForRunners env rel (primaryLanguageOf md.languages)
          counts trs).1 →
        spec.category = CheckCategory.test ∨ spec.category = CheckCategory.build by
      intro spec hs
      exact h md.taskRunners (fun _ => 0) spec hs
    intro trs
    induction trs with
    | nil =>
      intro counts spec h
      simp [emitForRunners] at h
    | cons tr rest ih =>
      intro counts spec h
      simp only [emitForRunners] at h
      rcases List.mem_append.mp h with hh | ht
      · rcases List.mem_append.mp hh with h1 | h2
        · exact Or.inl (emitForCmds_mem_category env rel _ _ _ _ _ _ spec h1)
        · exact Or.inr (emitForCmds_mem_category env rel _ _ _ _ _ _ spec h2)
      · exact ih _ spec ht
  · exact congrArg Prod.fst
      (emitForRunners_clearOther env rel (primaryLanguageOf md.languages)
        md.taskRunners (fun _ => 0))
  · suffices h : ∀ (trs : List TaskRunnerDetection) (counts : List Char → Nat),
        (emitForRunners env rel (primaryLanguageOf md.languages)
          counts trs).1.length =
        (trs.map fun tr =>
          tr.commands.test.length + tr.commands.build.length).sum by
      exact h md.taskRunners (fun _ => 0)
    intro trs
    induction trs with
    | nil => intro counts; rfl
    | cons tr rest ih =>
      intro counts
      simp only [emitForRunners, emitForRunner, List.length_append,
        List.map_cons, List.sum_cons]
      rw [emitForCmds_length, emitForCmds_length, ih]

/-- Witness for C10: the membership clause at a one-command metadata
record. -/
theorem c10_category_spec_witness :
    (⟨some Language.go, CheckCategory.test,
        ("golang-test-make-test-makefile").toList,
        ("check-golang-test-make-test-makefile").toList,
        ("make test").toList, ("make").toList, ("make test").toList,
        (".").toList⟩ : CheckSpec).category = CheckCategory.test ∨
    (⟨some Language.go, CheckCategory.test,
        ("golang-test-make-test-makefile").toList,
        ("check-golang-test-make-test-makefile").toList,
        ("make test").toList, ("make").toList, ("make test").toList,
        (".").toList⟩ : CheckSpec).category = CheckCategory.build :=
  (c10_category_spec ⟨fun _ => none, fun _ => false⟩ (fun _ => none)
    ⟨[Language.go],
     [⟨.make, ("Makefile").toList,
       ⟨[⟨("test").toList, .direct ("make test").toList, none⟩], [], []⟩⟩]⟩).1
    _ (by decide)

theorem digitChar_isDigit (n : Nat) : isAsciiDigit (digitChar n) = true := by
  rcases n with _|_|_|_|_|_|_|_|_|n <;> rfl

theorem digitVal_digitChar (n : Nat) (h : n < 10) :
    digitVal (digitChar n) = n := by
  interval_cases n <;> rfl

theorem decodeDigits_append_single (l : List Char) (c : Char) :
    decodeDigits (l ++ [c]) = 10 * decodeDigits l + digitVal c := by
  simp [decodeDigits, List.foldl_append]

theorem repr10Go_spec :
    ∀ (fuel n : Nat), n < fuel →
      repr10Go fuel n ≠ [] ∧ (repr10Go fuel n).all isAsciiDigit = true ∧
      decodeDigits (repr10Go fuel n) = n := by
  intro fuel
  induction fuel with
  | zero => intro n h; omega
  | succ f ih =>
    intro n h
    by_cases h10 : n < 10
    · refine ⟨by simp [repr10Go, h10], ?_, ?_⟩
      · simp [repr10Go, h10, digitChar_isDigit]
      · simp [repr10Go, h10, decodeDigits, digitVal_digitChar n h10]
    · have hdiv : n / 10 < n := Nat.div_lt_self (by omega) (by omega)
      have hf : n / 10 < f := by omega
      obtain ⟨hne, hall, hdec⟩ := ih (n / 10) hf
      rw [repr10Go, if_neg h10]
      refine ⟨by simp, ?_, ?_⟩
      · simp [List.all_append, hall, digitChar_isDigit]
      · rw [decodeDigits_append_single, hdec, digitVal_digitChar _ (by omega)]
        omega

theorem repr10_ne_nil (n : Nat) : repr10 n ≠ [] :=
  (repr10Go_spec (n + 1) n (by omega)).1

theorem repr10_all_digits (n : Nat) : (repr10 n).all isAsciiDigit = true :=
  (repr10Go_spec (n + 1) n (by omega)).2.1

theorem repr10_inj {m n : Nat} (h : repr10 m = repr10 n) : m = n := by
  have hm := (repr10Go_spec (m + 1) m (by omega)).2.2
  have hn := (repr10Go_spec (n + 1) n (by omega)).2.2
  unfold repr10 at h
  rw [h] at hm
  omega

theorem takeWhile_all_append (p : Char → Bool) :
    ∀ (l₁ l₂ : List Char), l₁.all p = true →
      (∀ c, l₂.head? = some c → p c = false) →
      (l₁ ++ l₂).takeWhile p = l₁ ∧ (l₁ ++ l₂).dropWhile p = l₂ := by
  intro l₁
  induction l₁ with
  | nil =>
    intro l₂ _ hhead
    cases l₂ with
    | nil => exact ⟨rfl, rfl⟩
    | cons c t =>
      have := hhead c rfl
      constructor
      · simp [List.takeWhile, this]
      · simp [List.dropWhile, this]
  | cons c t ih =>
    intro l₂ hall hhead
    rw [List.all_cons, Bool.and_eq_true] at hall
    have hc : p c = true := hall.1
    have ht : t.all p = true := hall.2
    obtain ⟨h1, h2⟩ := ih l₂ ht hhead
    constructor
    · simp [List.takeWhile, hc, h1]
    · simp [List.dropWhile, hc, h2]

theorem rev_base_suffix (b d : List Char) :
    (b ++ '-' :: d).reverse = d.reverse ++ '-' :: b.reverse := by
  simp

theorem suffix_cancel (b₁ d₁ b₂ d₂ : List Char)
    (h₁ : d₁.all isAsciiDigit = true) (h₂ : d₂.all isAsciiDigit = true)
    (h : b₁ ++ '-' :: d₁ = b₂ ++ '-' :: d₂) : b₁ = b₂ ∧ d₁ = d₂ := by
  have hrev : d₁.reverse ++ '-' :: b₁.reverse = d₂.reverse ++ '-' :: b₂.reverse := by
    rw [← rev_base_suffix, ← rev_base_suffix, h]
  have hhead : ∀ (b : List Char) (c : Char),
      ('-' :: b).head? = some c → isAsciiDigit c = false := by
    intro b c hc
    cases hc
    rfl
  have e₁ := takeWhile_all_append isAsciiDigit d₁.reverse ('-' :: b₁.reverse)
    (by simpa using h₁) (hhead _)
  have e₂ := takeWhile_all_append isAsciiDigit d₂.reverse ('-' :: b₂.reverse)
    (by simpa using h₂) (hhead _)
  have hd : d₁.reverse = d₂.reverse := by
    rw [← e₁.1, ← e₂.1, hrev]
  have hb : ('-' :: b₁.reverse) = ('-' :: b₂.reverse) := by
    rw [← e₁.2, ← e₂.2, hrev]
  constructor
  · have : b₁.reverse = b₂.reverse := by injection hb
    simpa using congrArg List.reverse this
  · simpa using congrArg List.reverse hd

theorem ends_append_digits (b d : List Char) (hd : d ≠ [])
    (hall : d.all isAsciiDigit = true) :
    endsNonDigit (b ++ '-' :: d) = false := by
  unfold endsNonDigit
  rw [List.getLast?_eq_head?_reverse, rev_base_suffix]
  cases hdr : d.reverse with
  | nil => exact absurd (by simpa using hdr) hd
  | cons c t =>
    have hcd : isAsciiDigit c = true := by
      have : d.reverse.all isAsciiDigit = true := by simpa using hall
      rw [hdr] at this
      simp [List.all_cons] at this
      exact this.1
    simp [hcd]

theorem encode_inj {b₁ b₂ : List Char} {n₁ n₂ : Nat}
    (e₁ : endsNonDigit b₁ = true) (e₂ : endsNonDigit b₂ = true)
    (g₁ : 1 ≤ n₁) (g₂ : 1 ≤ n₂)
    (h : encodeKey b₁ n₁ = encodeKey b₂ n₂) : b₁ = b₂ ∧ n₁ = n₂ := by
  unfold encodeKey at h
  by_cases l₁ : 1 < n₁ <;> by_cases l₂ : 1 < n₂
  · rw [if_pos l₁, if_pos l₂] at h
    obtain ⟨hb, hdig⟩ := suffix_cancel _ _ _ _ (repr10_all_digits n₁)
      (repr10_all_digits n₂) h
    exact ⟨hb, repr10_inj hdig⟩
  · rw [if_pos l₁, if_neg l₂] at h
    have := ends_append_digits b₁ (repr10 n₁) (repr10_ne_nil n₁)
      (repr10_all_digits n₁)
    rw [h] at this
    rw [this] at e₂
    cases e₂
  · rw [if_neg l₁, if_pos l₂] at h
    have := ends_append_digits b₂ (repr10 n₂) (repr10_ne_nil n₂)
      (repr10_all_digits n₂)
    rw [← h] at this
    rw [this] at e₁
    cases e₁
  · rw [if_neg l₁, if_neg l₂] at h
    exact ⟨h, by omega⟩

theorem occ_mem_gt :
    ∀ (bases : List (List Char)) (counts : List Char → Nat)
      (b : List Char) (n : Nat),
      (b, n) ∈ occListAux counts bases → counts b < n := by
  intro bases
  induction bases with
  | nil => intro counts b n h; simp [occListAux] at h
  | cons b0 rest ih =>
    intro counts b n h
    simp only [occListAux, List.mem_cons] at h
    rcases h with h | h
    · injection h with hb hn
      subst hb
      omega
    · have := ih (bumpCount counts b0) b n h
      unfold bumpCount at this
      by_cases hbb : b = b0
      · subst hbb
        simp at this
        omega
      · simp [hbb] at this
        exact this

theorem occ_mem_base :
    ∀ (bases : List (List Char)) (counts : List Char → Nat)
      (b : List Char) (n : Nat),
      (b, n) ∈ occListAux counts bases → b ∈ bases := by
  intro bases
  induction bases with
  | nil => intro counts b n h; simp [occListAux] at h
  | cons b0 rest ih =>
    intro counts b n h
    simp only [occListAux, List.mem_cons] at h
    rcases h with h | h
    · injection h with hb hn
      exact hb ▸ List.mem_cons_self _ _
    · exact List.mem_cons_of_mem _ (ih _ b n h)

theorem occ_nodup :
    ∀ (bases : List (List Char)) (counts : List Char → Nat),
      (occListAux counts bases).Nodup := by
  intro bases
  induction bases with
  | nil => intro counts; simp [occListAux]
  | cons b0 rest ih =>
    intro counts
    rw [occListAux]
    refine List.nodup_cons.mpr ⟨?_, ih _⟩
    intro hmem
    have := occ_mem_gt rest (bumpCount counts b0) b0 (counts b0 + 1) hmem
    unfold bumpCount at this
    simp at this

theorem assign_eq_map :
    ∀ (bases : List (List Char)) (counts : List Char → Nat),
      assignKeysAux counts bases =
        (occListAux counts bases).map fun p => encodeKey p.1 p.2 := by
  intro bases
  induction bases with
  | nil => intro counts; rfl
  | cons b0 rest ih =>
    intro counts
    simp only [assignKeysAux, occListAux, List.map_cons]
    rw [ih]

theorem assignKeys_nodup (bases : List (List Char))
    (h : ∀ b ∈ bases, endsNonDigit b = true) :
    (assignKeys bases).Nodup := by
  unfold assignKeys
  rw [assign_eq_map]
  refine List.Nodup.map_on ?_ (occ_nodup bases _)
  rintro ⟨b₁, n₁⟩ h₁ ⟨b₂, n₂⟩ h₂ heq
  have e₁ := h b₁ (occ_mem_base bases _ b₁ n₁ h₁)
  have e₂ := h b₂ (occ_mem_base bases _ b₂ n₂ h₂)
  have g₁ := occ_mem_gt bases _ b₁ n₁ h₁
  have g₂ := occ_mem_gt bases _ b₂ n₂ h₂
  obtain ⟨hb, hn⟩ := encode_inj e₁ e₂ (by omega) (by omega) heq
  rw [Prod.mk.injEq]
  exact ⟨hb, hn⟩

theorem assignKeysAux_append :
    ∀ (l₁ l₂ : List (List Char)) (counts : List Char → Nat),
      assignKeysAux counts (l₁ ++ l₂) =
        assignKeysAux counts l₁ ++ assignKeysAux (bumpCounts counts l₁) l₂ := by
  intro l₁
  induction l₁ with
  | nil => intro l₂ counts; rfl
  | cons b rest ih =>
    intro l₂ counts
    simp only [List.cons_append, assignKeysAux, bumpCounts, List.append_eq]
    rw [ih]

theorem emitForCmds_keys (env : JsProjectEnv)
    (rel : List Char → Option (List Char)) (primary : Option Language)
    (tr : TaskRunner) (slug : List Char) (category : CheckCategory) :
    ∀ (cmds : List TaskCommand) (counts : List Char → Nat),
      (emitForCmds env rel primary tr slug category counts cmds).1.map
          CheckSpec.key =
        assignKeysAux counts
          (cmds.map (baseKeyOfCmd env rel primary tr slug category)) ∧
      (emitForCmds env rel primary tr slug category counts cmds).2 =
        bumpCounts counts
          (cmds.map (baseKeyOfCmd env rel primary tr slug category)) := by
  intro cmds
  induction cmds with
  | nil => intro counts; exact ⟨rfl, rfl⟩
  | cons cmd rest ih =>
    intro counts
    obtain ⟨ihk, ihc⟩ :=
      ih (bumpCount counts (baseKeyOfCmd env rel primary tr slug category cmd))
    constructor
    · simp only [emitForCmds, List.map_cons, assignKeysAux]
      exact congrArg _ ihk
    · simp only [emitForCmds, List.map_cons, bumpCounts]
      exact ihc

theorem emitForRunner_keys (env : JsProjectEnv)
    (rel : List Char → Option (List Char)) (primary : Option Language)
    (counts : List Char → Nat) (tr : TaskRunnerDetection) :
    (emitForRunner env rel primary counts tr).1.map CheckSpec.key =
      assignKeysAux counts (runnerBaseKeys env rel primary tr) ∧
    (emitForRunner env rel primary counts tr).2 =
      bumpCounts counts (runnerBaseKeys env rel primary tr) := by
  have bc : ∀ (c : List Char → Nat) (l₁ l₂ : List (List Char)),
      bumpCounts c (l₁ ++ l₂) = bumpCounts (bumpCounts c l₁) l₂ := by
    intro c l₁
    induction l₁ generalizing c with
    | nil => intro l₂; rfl
    | cons b rest ih =>
      intro l₂
      simp only [List.cons_append, bumpCounts, List.append_eq]
      exact ih _ _
  obtain ⟨k1, c1⟩ := emitForCmds_keys env rel primary tr.taskRunner
    (slugify_identifier ((rel tr.path).getD tr.path)) .test tr.commands.test counts
  obtain ⟨k2, c2⟩ := emitForCmds_keys env rel primary tr.taskRunner
    (slugify_identifier ((rel tr.path).getD tr.path)) .build tr.commands.build
    (bumpCounts counts
      (tr.commands.test.map (baseKeyOfCmd env rel primary tr.taskRunner
        (slugify_identifier ((rel tr.path).getD tr.path)) .test)))
  constructor
  · simp only [emitForRunner, runnerBaseKeys, List.map_append,
      assignKeysAux_append]
    rw [c1, k1, k2]
  · simp only [emitForRunner, runnerBaseKeys, bc]
    rw [c1, c2]

theorem emitForRunners_keys (env : JsProjectEnv)
    (rel : List Char → Option (List Char)) (primary : Option Language) :
    ∀ (trs : List TaskRunnerDetection) (counts : List Char → Nat),
      (emitForRunners env rel primary counts trs).1.map CheckSpec.key =
        assignKeysAux counts
          (trs.flatMap (runnerBaseKeys env rel primary)) := by
  intro trs
  induction trs with
  | nil => intro counts; rfl
  | cons tr rest ih =>
    intro counts
    obtain ⟨k1, c1⟩ := emitForRunner_keys env rel primary counts tr
    simp only [emitForRunners, List.flatMap_cons, assignKeysAux_append,
      List.map_append]
    rw [k1, c1, ih]

theorem collect_checks_keys (env : JsProjectEnv)
    (rel : List Char → Option (List Char)) (md : GenMetadata) :
    (collect_checks env rel md).map CheckSpec.key =
      assignKeys (allBaseKeys env rel md) :=
  emitForRunners_keys env rel (primaryLanguageOf md.languages)
    md.taskRunners (fun _ => 0)

theorem endsNonDigit_append_ne (a b : List Char) (hb : b ≠ []) :
    endsNonDigit (a ++ b) = endsNonDigit b := by
  unfold endsNonDigit
  rw [List.getLast?_append]
  cases hb2 : b.getLast? with
  | none => exact absurd (List.getLast?_eq_none_iff.mp hb2) hb
  | some c => rfl

theorem endsNonDigit_dash_append (a s : List Char)
    (h : s = [] ∨ endsNonDigit s = true) :
    endsNonDigit (a ++ '-' :: s) = true := by
  rw [endsNonDigit_append_ne a ('-' :: s) (by simp)]
  rcases h with h | h
  · subst h; decide
  · have hs : s ≠ [] := by
      intro he
      rw [he] at h
      simp [endsNonDigit] at h
    rw [show ('-' :: s) = ['-'] ++ s from rfl, endsNonDigit_append_ne _ _ hs]
    exact h

/-- Claim C4: derivation keys are built from (ecosystem, category, runner
name, slugified command name, slugified runner path) and deduplicated with
an incrementing numeric suffix, so — since every base key ends with the
runner-path slug, whose final character is a non-digit letter of the runner
file name (or a dash for an empty slug) — all keys of a generated flake are
pairwise distinct; in particular `test:unit` and `test_unit` in the same
manifest, category and runner yield two keys, the second suffixed `-2`. -/
theorem c4_key_dedup_spec :
    (∀ (env : JsProjectEnv) (rel : List Char → Option (List Char))
      (md : GenMetadata),
      (∀ b ∈ allBaseKeys env rel md, endsNonDigit b = true) →
      ((collect_checks env rel md).map CheckSpec.key).Nodup) ∧
    (∀ (language : Option Language) (category : CheckCategory)
      (tr : TaskRunner) (cmdName runnerSlug : List Char),
      runnerSlug = [] ∨ endsNonDigit runnerSlug = true →
      endsNonDigit (checkBaseKey language category tr cmdName runnerSlug) =
        true) ∧
    (collect_checks ⟨fun _ => none, fun _ => false⟩ (fun p => some p)
        ⟨[], [⟨.npmScripts, ("package.json").toList,
          ⟨[⟨("test:unit").toList,
             .packageManagerScript (("test:unit").toList) (("jest a").toList)
               (("package.json").toList), none⟩,
            ⟨("test_unit").toList,
             .packageManagerScript (("test_unit").toList) (("jest b").toList)
               (("package.json").toList), none⟩], [], []⟩⟩]⟩).map
      CheckSpec.key =
      [("nodejs-test-npmscripts-test-unit-package-json").toList,
       ("nodejs-test-npmscripts-test-unit-package-json-2").toList] := by
  refine ⟨?_, ?_, ?_⟩
  · intro env rel md h
    rw [collect_checks_keys]
    exact assignKeys_nodup _ h
  · intro language category tr cmdName runnerSlug h
    unfold checkBaseKey
    exact endsNonDigit_dash_append _ _ h
  · decide

/-- Witness for C4: the distinctness clause at the concrete two-command
metadata of the collision example. -/
theorem c4_key_dedup_spec_witness :
    ((collect_checks ⟨fun _ => none, fun _ => false⟩ (fun p => some p)
        ⟨[], [⟨.npmScripts, ("package.json").toList,
          ⟨[⟨("test:unit").toList,
             .packageManagerScript (("test:unit").toList) (("jest a").toList)
               (("package.json").toList), none⟩,
            ⟨("test_unit").toList,
             .packageManagerScript (("test_unit").toList) (("jest b").toList)
               (("package.json").toList), none⟩], [], []⟩⟩]⟩).map
      CheckSpec.key).Nodup :=
  c4_key_dedup_spec.1 ⟨fun _ => none, fun _ => false⟩ (fun p => some p)
    ⟨[], [⟨.npmScripts, ("package.json").toList,
      ⟨[⟨("test:unit").toList,
         .packageManagerScript (("test:unit").toList) (("jest a").toList)
           (("package.json").toList), none⟩,
        ⟨("test_unit").toList,
         .packageManagerScript (("test_unit").toList) (("jest b").toList)
           (("package.json").toList), none⟩], [], []⟩⟩]⟩
    (by decide)

end Autonix
